import Mathlib

/-!
Shallow embedding of `self_organising_systems/biomakerca/mutators.py`.

JAX 1-D arrays are modelled as `List ℚ`.  The stochastic primitives
(`jr.normal`, `jr.uniform`, `jr.truncated_normal`) draw one value per
position of the target shape; each such draw is modelled as a function
`ℕ → ℚ` from position to drawn value, universally quantified in the
theorems (with its support constraint as a hypothesis where needed:
`jr.uniform` with default bounds lands in `[0, 1)`, with
`minval=-1, maxval=1` in `[-1, 1)`).  Key splitting is pure bookkeeping
that selects which abstract draw function is consumed, so distinct draw
functions stand for the distinct sub-keys.  A shape error raised by JAX
(e.g. reshaping an odd-length trailing axis into pairs) is modelled by
`Option`: `none` is the hard failure.
-/

namespace Mutators

/-- `jnp.ndarray.clip(lo, hi)`: `minimum (maximum x lo) hi`. -/
def clip (x lo hi : ℚ) : ℚ := min (max x lo) hi

/-- `BasicMutator`: mutator with a constant standard deviation (`sd`) and a
probability `change_perc` that any given parameter is perturbed. -/
structure BasicMutator where
  sd : ℚ
  change_perc : ℚ

/-- `BasicMutator.initialize(key, p)`: returns `p` unchanged (the strategy
carries no mutation metadata).  The key is unused in the source as well. -/
def BasicMutator.initP (_m : BasicMutator) (_key : ℕ) (p : List ℚ) : List ℚ := p

/-- `BasicMutator.split_params(p) = (p, jp.empty(0))`. -/
def BasicMutator.split_params (_m : BasicMutator) (p : List ℚ) : List ℚ × List ℚ :=
  (p, [])

/-- `dp = jr.normal(k1, p.shape) * sd * (jr.uniform(k2, p.shape) < change_perc)`.
`normal` and `unif` are the per-position draws of the two sub-keys; the
boolean comparison is cast to float (1 or 0) as in the source. -/
def BasicMutator.dp (m : BasicMutator) (normal unif : ℕ → ℚ) (n : ℕ) : List ℚ :=
  (List.range n).map fun i =>
    normal i * m.sd * (if unif i < m.change_perc then (1 : ℚ) else 0)

/-- `BasicMutator.mutate(key, p) = p + dp`. -/
def BasicMutator.mutate (m : BasicMutator) (normal unif : ℕ → ℚ) (p : List ℚ) :
    List ℚ :=
  List.zipWith (fun a b => a + b) p (m.dp normal unif p.length)

/-- `RandomlyAdaptiveMutator` configuration.  `change_perc = none` models the
Python `None` ("always perturb every parameter"). -/
structure RandomlyAdaptiveMutator where
  init_sd : ℚ
  change_perc : Option ℚ
  meta_sd_perc : ℚ
  min_sd : ℚ
  max_sd : ℚ

/-- `jp.ravel(jp.column_stack((p, sd)))`: interleave the two columns into
`[p0, sd0, p1, sd1, ...]`.  All call sites supply lists of equal length
(`column_stack` would fail otherwise). -/
def interleave (p sd : List ℚ) : List ℚ :=
  ((p.zip sd).map fun q => [q.1, q.2]).flatten

/-- `RandomlyAdaptiveMutator.join_params(p, sd)`. -/
def RandomlyAdaptiveMutator.join_params (_m : RandomlyAdaptiveMutator)
    (p sd : List ℚ) : List ℚ :=
  interleave p sd

/-- `RandomlyAdaptiveMutator.initialize(key, p)`: pair every parameter with
`init_sd` (`jp.full_like(p, init_sd)`) and interleave. -/
def RandomlyAdaptiveMutator.initP (m : RandomlyAdaptiveMutator) (_key : ℕ)
    (p : List ℚ) : List ℚ :=
  m.join_params p (p.map fun _ => m.init_sd)

/-- `p.reshape(p.shape[:-1] + (p.shape[-1]//2, 2))` on the trailing axis of a
1-D array: group into consecutive pairs; JAX raises when the length is odd
(the reshape sizes do not match), modelled by `none`. -/
def toPairs : List ℚ → Option (List (ℚ × ℚ))
  | [] => some []
  | [_] => none
  | a :: b :: tl => (toPairs tl).map fun l => (a, b) :: l

/-- `RandomlyAdaptiveMutator.split_params(p)` on a single (1-D) vector:
reshape the trailing axis into pairs, then take components `[..., 0]` of the
two halves, i.e. first and second members of each pair. -/
def RandomlyAdaptiveMutator.split_params (_m : RandomlyAdaptiveMutator)
    (p : List ℚ) : Option (List ℚ × List ℚ) :=
  (toPairs p).map fun l => (l.map Prod.fst, l.map Prod.snd)

/-- `RandomlyAdaptiveMutator.split_params` on a batched (2-D) array: the
reshape `p.shape[:-1] + (p.shape[-1]//2, 2)` keeps every leading dimension
and regroups only the trailing axis, which in row-major layout regroups each
row independently. -/
def RandomlyAdaptiveMutator.split_params_b (_m : RandomlyAdaptiveMutator)
    (rows : List (List ℚ)) : Option (List (List ℚ) × List (List ℚ)) :=
  (rows.mapM toPairs).map fun prs =>
    (prs.map (List.map Prod.fst), prs.map (List.map Prod.snd))

/-- `dmu = jr.truncated_normal(ku, -3, 3, sd.shape) * sd`, then
`dmu *= mask` when `change_perc` is not `None`, where
`mask = (jr.uniform(ku, sd.shape) < change_perc)` cast to float.
`tn1` is the truncated-normal draw, `unif` the mask draw. -/
def RandomlyAdaptiveMutator.dmuArr (m : RandomlyAdaptiveMutator)
    (tn1 unif : ℕ → ℚ) (sd : List ℚ) : List ℚ :=
  let raw := List.zipWith (fun t s => t * s) ((List.range sd.length).map tn1) sd
  match m.change_perc with
  | none => raw
  | some cp =>
      List.zipWith (fun d mk => d * mk) raw
        ((List.range sd.length).map fun i => if unif i < cp then (1 : ℚ) else 0)

/-- `dsd = jr.truncated_normal(ku, -3, 3, sd.shape) * sd * meta_sd_perc`, then
`dsd *= mask` with the same mask as `dmuArr` (same `unif` draw). -/
def RandomlyAdaptiveMutator.dsdArr (m : RandomlyAdaptiveMutator)
    (tn2 unif : ℕ → ℚ) (sd : List ℚ) : List ℚ :=
  let raw := List.zipWith (fun t s => t * s * m.meta_sd_perc)
    ((List.range sd.length).map tn2) sd
  match m.change_perc with
  | none => raw
  | some cp =>
      List.zipWith (fun d mk => d * mk) raw
        ((List.range sd.length).map fun i => if unif i < cp then (1 : ℚ) else 0)

/-- `RandomlyAdaptiveMutator.mutate(key, p)`:
split, add the (masked) deltas, clip the new sd, re-interleave.
`tn1`, `tn2`, `unif` are the draws of the three successive sub-keys. -/
def RandomlyAdaptiveMutator.mutate (m : RandomlyAdaptiveMutator)
    (tn1 tn2 unif : ℕ → ℚ) (p : List ℚ) : Option (List ℚ) :=
  match m.split_params p with
  | none => none
  | some (mu, sd) =>
      some (m.join_params
        (List.zipWith (fun a b => a + b) mu (m.dmuArr tn1 unif sd))
        (List.zipWith (fun s d => clip (s + d) m.min_sd m.max_sd) sd
          (m.dsdArr tn2 unif sd)))

/-- `t*t*t*(t*(t*6 - 15) + 10)`, the cubic smoothstep used by
`valuenoise1d` when `interpolation == "cubic"`. -/
def smoothstep (x : ℚ) : ℚ := x * x * x * (x * (x * 6 - 15) + 10)

/-- `int(math.ceil(n / (f - 1)))`. -/
def n_repeats (f n : ℕ) : ℕ := (n + (f - 1) - 1) / (f - 1)

/-- `valuenoise1d(key, f, n, interpolation)`.  `grads` is the per-position
uniform draw in `[-1, 1]` of the sub-key (`jr.uniform(ku, (f,), -1, 1)`);
`grads[:-1]` and `grads[1:]` repeated `n_repeats` times and truncated give
the segment endpoints, `t` tiles `linspace(0, 1, n_repeats+1)[:-1]`, and the
result is `prev + t * (nxt - prev)` with `t` smoothstepped in cubic mode. -/
def valuenoise1d (grads : ℕ → ℚ) (f n : ℕ) (interp : String) : List ℚ :=
  let nr := n_repeats f n
  let gl := (List.range f).map grads
  let pr := ((gl.dropLast.map (List.replicate nr)).flatten).take n
  let nxt := (((gl.drop 1).map (List.replicate nr)).flatten).take n
  let lin := (((List.range (nr + 1)).map fun j : ℕ => (j : ℚ) / (nr : ℚ)).dropLast)
  let t0 := ((List.replicate (f - 1) lin).flatten).take n
  let tt := if interp = "cubic" then t0.map smoothstep else t0
  List.zipWith (fun a q => a + q.1 * (q.2 - a)) pr (tt.zip nxt)

/-- `new_p = xo_mask * p1 + (1. - xo_mask) * p2`, with the boolean mask cast
to float (1 or 0). -/
def crossover (mask : List Bool) (p1 p2 : List ℚ) : List ℚ :=
  List.zipWith
    (fun b q => (if b then (1 : ℚ) else 0) * q.1 +
      (1 - if b then (1 : ℚ) else 0) * q.2)
    mask (p1.zip p2)

/-- `CrossOverSexualMutator.mutate(key, p1, p2)`:
`xo_mask = valuenoise1d(ku, n_frequencies, p1.shape[0], "linear") > 0`,
recombine, then delegate to the wrapped asexual mutator with a fresh sub-key.
`amut` stands for that delegated call (`self.mutator.mutate(ku, .)` with its
fresh key already fixed), `grads` for the noise sub-key draw, `nf` for
`n_frequencies`. -/
def CrossOverSexualMutator.mutate (amut : List ℚ → List ℚ) (grads : ℕ → ℚ)
    (nf : ℕ) (p1 p2 : List ℚ) : List ℚ :=
  let xo_mask := (valuenoise1d grads nf p1.length "linear").map fun x =>
    decide (0 < x)
  amut (crossover xo_mask p1 p2)

/-! ### Index and length helper lemmas -/

theorem getD_zipWith {α β γ : Type} (f : α → β → γ) (da : α) (db : β) (dc : γ)
    (a : List α) (b : List β) (k : ℕ) (ha : k < a.length) (hb : k < b.length) :
    (List.zipWith f a b).getD k dc = f (a.getD k da) (b.getD k db) := by
  have hk : k < (List.zipWith f a b).length := by
    simp only [List.length_zipWith, lt_min_iff]; exact ⟨ha, hb⟩
  rw [List.getD_eq_getElem _ _ hk, List.getD_eq_getElem _ _ ha,
    List.getD_eq_getElem _ _ hb]
  exact List.getElem_zipWith

theorem getD_take {α : Type} (l : List α) (d : α) (n k : ℕ) (h : k < n)
    (hl : k < l.length) : (l.take n).getD k d = l.getD k d := by
  have hk : k < (l.take n).length := by
    simp only [List.length_take, lt_min_iff]; exact ⟨h, hl⟩
  rw [List.getD_eq_getElem _ _ hk, List.getD_eq_getElem _ _ hl]
  exact List.getElem_take _

theorem getD_range_map {α : Type} (g : ℕ → α) (d : α) (n k : ℕ) (h : k < n) :
    ((List.range n).map g).getD k d = g k := by
  have hk : k < ((List.range n).map g).length := by simpa using h
  rw [List.getD_eq_getElem _ _ hk, List.getElem_map, List.getElem_range]

theorem length_flatten_replicate {α : Type} (nr : ℕ) (l : List α) :
    ((l.map (List.replicate nr)).flatten).length = nr * l.length := by
  induction l with
  | nil => simp
  | cons a tl ih => simp only [List.map_cons, List.flatten_cons,
      List.length_append, List.length_replicate, List.length_cons, ih]; ring

theorem getD_flatten_replicate {α : Type} (nr : ℕ) (d : α) :
    ∀ (l : List α) (k : ℕ), k < nr * l.length →
      ((l.map (List.replicate nr)).flatten).getD k d = l.getD (k / nr) d := by
  intro l
  induction l with
  | nil => simp
  | cons a tl ih =>
    intro k hk
    have hnr : 0 < nr := by
      rcases Nat.eq_zero_or_pos nr with h | h
      · subst h; simp at hk
      · exact h
    simp only [List.map_cons, List.flatten_cons]
    by_cases h : k < nr
    · have h1 : k < (List.replicate nr a).length := by simpa using h
      rw [List.getD_append _ _ _ _ h1, Nat.div_eq_of_lt h,
        List.getD_eq_getElem _ _ h1, List.getElem_replicate]
      rfl
    · push_neg at h
      have h1 : (List.replicate nr a).length ≤ k := by simpa using h
      rw [List.getD_append_right _ _ _ _ h1]
      have hk' : k - nr < nr * tl.length := by
        have : nr * (tl.length + 1) = nr * tl.length + nr := by ring
        rw [List.length_cons, this] at hk; omega
      rw [List.length_replicate, ih _ hk',
        Nat.div_eq_sub_div hnr h]
      simp

theorem getD_flatten_replicate_list {α : Type} (d : α) (x : List α) :
    ∀ (m k : ℕ), k < m * x.length →
      ((List.replicate m x).flatten).getD k d = x.getD (k % x.length) d := by
  intro m
  induction m with
  | zero => simp
  | succ m ih =>
    intro k hk
    simp only [List.replicate_succ, List.flatten_cons]
    by_cases h : k < x.length
    · rw [List.getD_append _ _ _ _ h, Nat.mod_eq_of_lt h]
    · push_neg at h
      rw [List.getD_append_right _ _ _ _ h]
      have hlen : 0 < x.length := by
        rcases Nat.eq_zero_or_pos x.length with h0 | h0
        · rw [h0] at hk; simp at hk
        · exact h0
      have hk' : k - x.length < m * x.length := by
        rw [Nat.succ_mul] at hk; omega
      rw [ih _ hk']
      congr 1
      conv_rhs => rw [← Nat.sub_add_cancel h]
      rw [Nat.add_mod_right]

/-! ### Interleave / de-interleave lemmas -/

theorem interleave_nil : interleave [] [] = [] := rfl

theorem interleave_cons (a b : ℚ) (p sd : List ℚ) :
    interleave (a :: p) (b :: sd) = a :: b :: interleave p sd := by
  simp [interleave]

theorem toPairs_interleave : ∀ (p sd : List ℚ), p.length = sd.length →
    toPairs (interleave p sd) = some (p.zip sd)
  | [], [] => fun _ => rfl
  | [], _ :: _ => by intro h; simp at h
  | _ :: _, [] => by intro h; simp at h
  | a :: t1, b :: t2 => by
    intro h
    rw [interleave_cons]
    simp [toPairs, toPairs_interleave t1 t2 (by simpa using h)]

theorem split_params_interleave (m : RandomlyAdaptiveMutator) {p sd : List ℚ}
    (h : p.length = sd.length) :
    m.split_params (interleave p sd) = some (p, sd) := by
  unfold RandomlyAdaptiveMutator.split_params
  rw [toPairs_interleave p sd h]
  simp [List.map_fst_zip p sd (le_of_eq h), List.map_snd_zip p sd (le_of_eq h.symm)]

theorem toPairs_odd : ∀ (p : List ℚ), p.length % 2 = 1 → toPairs p = none
  | [] => by intro h; simp at h
  | [_] => fun _ => rfl
  | a :: b :: tl => by
    intro h
    have h' : tl.length % 2 = 1 := by
      simp only [List.length_cons] at h; omega
    simp [toPairs, toPairs_odd tl h']

theorem toPairs_even : ∀ (p : List ℚ), p.length % 2 = 0 → ∃ l, toPairs p = some l
  | [] => fun _ => ⟨[], rfl⟩
  | [_] => by intro h; simp at h
  | a :: b :: tl => by
    intro h
    obtain ⟨l, hl⟩ := toPairs_even tl (by simp only [List.length_cons] at h; omega)
    exact ⟨(a, b) :: l, by simp [toPairs, hl]⟩

theorem split_params_lengths (m : RandomlyAdaptiveMutator) {p mu sd : List ℚ}
    (h : m.split_params p = some (mu, sd)) : mu.length = sd.length := by
  unfold RandomlyAdaptiveMutator.split_params at h
  cases htp : toPairs p with
  | none => rw [htp] at h; simp at h
  | some l =>
      rw [htp] at h
      simp at h
      obtain ⟨h1, h2⟩ := h
      rw [← h1, ← h2]; simp

theorem length_interleave : ∀ (p sd : List ℚ), p.length = sd.length →
    (interleave p sd).length = 2 * p.length
  | [], [] => fun _ => rfl
  | [], _ :: _ => by intro h; simp at h
  | _ :: _, [] => by intro h; simp at h
  | a :: t1, b :: t2 => by
    intro h
    rw [interleave_cons]
    simp only [List.length_cons, length_interleave t1 t2 (by simpa using h)]
    ring

theorem getD_interleave : ∀ (p sd : List ℚ) (i : ℕ), p.length = sd.length →
    i < p.length →
    (interleave p sd).getD (2 * i) 0 = p.getD i 0 ∧
    (interleave p sd).getD (2 * i + 1) 0 = sd.getD i 0
  | [], _, _ => by intro _ hi; simp at hi
  | _ :: _, [], _ => by intro h; simp at h
  | a :: t1, b :: t2, 0 => by
    intro _ _
    rw [interleave_cons]
    exact ⟨rfl, rfl⟩
  | a :: t1, b :: t2, i + 1 => by
    intro h hi
    rw [interleave_cons]
    have h2 : 2 * (i + 1) = (2 * i + 1) + 1 := by ring
    rw [h2]
    simp only [List.getD_cons_succ]
    exact getD_interleave t1 t2 i (by simpa using h) (by simpa using hi)

/-! ### Further helpers -/

theorem getD_map_in {α β : Type} (g : α → β) (l : List α) (j : ℕ) (d' : β)
    (d : α) (h : j < l.length) : (l.map g).getD j d' = g (l.getD j d) := by
  have h' : j < (l.map g).length := by simpa using h
  rw [List.getD_eq_getElem _ _ h', List.getD_eq_getElem _ _ h, List.getElem_map]

theorem zipWith_add_eq_self : ∀ (p l : List ℚ), (∀ x ∈ l, x = 0) →
    p.length ≤ l.length → List.zipWith (fun a b => a + b) p l = p
  | [], _ => fun _ _ => rfl
  | _ :: _, [] => by intro _ hl; simp at hl
  | a :: t, b :: l => by
    intro h hl
    simp only [List.zipWith_cons_cons]
    rw [h b (by simp), add_zero,
      zipWith_add_eq_self t l (fun x hx => h x (by simp [hx])) (by simpa using hl)]

theorem mapM_toPairs_spec : ∀ (rows : List (List ℚ)),
    (∀ r ∈ rows, r.length % 2 = 0) →
    ∃ prs : List (List (ℚ × ℚ)), rows.mapM toPairs = some prs
      ∧ prs.length = rows.length
      ∧ ∀ j, j < rows.length →
          toPairs (rows.getD j []) = some (prs.getD j []) := by
  intro rows
  induction rows with
  | nil => exact fun _ => ⟨[], rfl, rfl, fun j hj => absurd hj (by simp)⟩
  | cons r rows ih =>
    intro h
    obtain ⟨l, hl⟩ := toPairs_even r (h r (by simp))
    obtain ⟨prs, hprs, hlen, hj⟩ := ih (fun x hx => h x (by simp [hx]))
    refine ⟨l :: prs, ?_, by simp [hlen], ?_⟩
    · rw [List.mapM_cons, hl, hprs]; rfl
    · intro j hjlt
      cases j with
      | zero => simpa using hl
      | succ j => simpa using hj j (by simpa using hjlt)

theorem split_b_spec (m : RandomlyAdaptiveMutator) (rows : List (List ℚ))
    (hrows : ∀ r ∈ rows, r.length % 2 = 0) :
    ∃ mus sds, m.split_params_b rows = some (mus, sds)
      ∧ mus.length = rows.length ∧ sds.length = rows.length
      ∧ ∀ j, j < rows.length →
          m.split_params (rows.getD j []) = some (mus.getD j [], sds.getD j []) := by
  obtain ⟨prs, hprs, hlen, hj⟩ := mapM_toPairs_spec rows hrows
  refine ⟨prs.map (List.map Prod.fst), prs.map (List.map Prod.snd), ?_, by simp [hlen],
    by simp [hlen], ?_⟩
  · unfold RandomlyAdaptiveMutator.split_params_b
    rw [hprs]; rfl
  · intro j hjlt
    have hjp : j < prs.length := by omega
    unfold RandomlyAdaptiveMutator.split_params
    rw [hj j hjlt]
    have h1 : (prs.map (List.map Prod.fst)).getD j [] =
        (prs.getD j []).map Prod.fst := by
      have := getD_map_in (List.map Prod.fst) prs j ([] : List ℚ) [] hjp
      simpa using this
    have h2 : (prs.map (List.map Prod.snd)).getD j [] =
        (prs.getD j []).map Prod.snd := by
      have := getD_map_in (List.map Prod.snd) prs j ([] : List ℚ) [] hjp
      simpa using this
    rw [h1, h2]; rfl

/-! ### Concrete configurations used as evaluation inputs -/

/-- A `RandomlyAdaptiveMutator` with the source's default `meta_sd_perc=0.1`,
`min_sd=1e-5`, `max_sd=1e1`, `init_sd=0.1` and `change_perc=None`. -/
def mr0 : RandomlyAdaptiveMutator :=
  ⟨1/10, none, 1/10, 1/100000, 10⟩

/-- Like `mr0` but with `change_perc=1.0` and `init_sd=1.0`. -/
def me2 : RandomlyAdaptiveMutator :=
  ⟨1, some 1, 1/10, 1/100000, 10⟩

/-! ### Claims -/

/-- C1: Round-trip law: for every strategy, every key and every 1-D model
vector `p`, the model component of `split_params (initialize key p)` is
exactly `p`; for `RandomlyAdaptiveMutator` the recovered std-dev component is
the constant `init_sd` at every position. -/
theorem c1_round_trip (mb : BasicMutator) (mr : RandomlyAdaptiveMutator)
    (key : ℕ) (p : List ℚ) :
    mb.split_params (mb.initP key p) = (p, [])
    ∧ mr.split_params (mr.initP key p) = some (p, p.map fun _ => mr.init_sd) := by
  refine ⟨rfl, ?_⟩
  unfold RandomlyAdaptiveMutator.initP RandomlyAdaptiveMutator.join_params
  exact split_params_interleave mr (by simp)

/-- C8: de-interleaving a vector of odd trailing length is a hard failure
(`none`), never a silent coercion, truncation or padding. -/
theorem c8_odd_split_fails (m : RandomlyAdaptiveMutator) (p : List ℚ)
    (h : p.length % 2 = 1) : m.split_params p = none := by
  unfold RandomlyAdaptiveMutator.split_params
  rw [toPairs_odd p h]; rfl

theorem c8_odd_split_fails_witness :
    ([(1 : ℚ), 2, 3].length % 2 = 1) ∧ mr0.split_params [1, 2, 3] = none :=
  ⟨by simp, c8_odd_split_fails mr0 [1, 2, 3] (by simp)⟩

/-- C7: BasicMutator degenerate configurations: with `change_perc = 0` (any
`sd`, uniform draws being in `[0, 1)`), and with `sd = 0, change_perc = 1`,
`mutate` returns `p` exactly for every key. -/
theorem c7_basic_identity (sdv : ℚ) (normal unif : ℕ → ℚ) (p : List ℚ)
    (hu : ∀ i, 0 ≤ unif i) :
    BasicMutator.mutate ⟨sdv, 0⟩ normal unif p = p
    ∧ BasicMutator.mutate ⟨0, 1⟩ normal unif p = p := by
  constructor
  · unfold BasicMutator.mutate
    apply zipWith_add_eq_self
    · intro x hx
      unfold BasicMutator.dp at hx
      simp only [List.mem_map, List.mem_range] at hx
      obtain ⟨i, _, hx⟩ := hx
      rw [← hx]
      simp [not_lt.mpr (hu i)]
    · unfold BasicMutator.dp; simp
  · unfold BasicMutator.mutate
    apply zipWith_add_eq_self
    · intro x hx
      unfold BasicMutator.dp at hx
      simp only [List.mem_map, List.mem_range] at hx
      obtain ⟨i, _, hx⟩ := hx
      rw [← hx]; simp
    · unfold BasicMutator.dp; simp

theorem c7_basic_identity_witness :
    (∀ i : ℕ, (0 : ℚ) ≤ (fun _ : ℕ => (1 : ℚ) / 2) i)
    ∧ BasicMutator.mutate ⟨5, 0⟩ (fun i => (i : ℚ) + 1) (fun _ => 1/2) [1, 2, 3]
        = [1, 2, 3]
    ∧ BasicMutator.mutate ⟨0, 1⟩ (fun i => (i : ℚ) + 1) (fun _ => 1/2) [1, 2, 3]
        = [1, 2, 3] :=
  ⟨fun _ => by norm_num,
    (c7_basic_identity 5 (fun i => (i : ℚ) + 1) (fun _ => 1/2) [1, 2, 3]
      (fun _ => by norm_num)).1,
    (c7_basic_identity 5 (fun i => (i : ℚ) + 1) (fun _ => 1/2) [1, 2, 3]
      (fun _ => by norm_num)).2⟩

/-- C4: the full vector is the interleaving `[p0, sd0, p1, sd1, ...]` of
length `2L`; `split_params` de-interleaves it back, and the batched variant
preserves the leading dimension, unpacking each row exactly as the 1-D
`split_params` does. -/
theorem c4_interleaved (m : RandomlyAdaptiveMutator) (key : ℕ)
    (p mu sd : List ℚ) (rows : List (List ℚ)) (hms : mu.length = sd.length)
    (hrows : ∀ r ∈ rows, r.length % 2 = 0) :
    (m.initP key p).length = 2 * p.length
    ∧ (∀ i, i < p.length →
        (m.initP key p).getD (2 * i) 0 = p.getD i 0
        ∧ (m.initP key p).getD (2 * i + 1) 0 = m.init_sd)
    ∧ m.split_params (m.join_params mu sd) = some (mu, sd)
    ∧ ∃ mus sds, m.split_params_b rows = some (mus, sds)
        ∧ mus.length = rows.length ∧ sds.length = rows.length
        ∧ ∀ j, j < rows.length →
            m.split_params (rows.getD j []) = some (mus.getD j [], sds.getD j []) := by
  refine ⟨?_, ?_, ?_, split_b_spec m rows hrows⟩
  · unfold RandomlyAdaptiveMutator.initP RandomlyAdaptiveMutator.join_params
    exact length_interleave p _ (by simp)
  · intro i hi
    unfold RandomlyAdaptiveMutator.initP RandomlyAdaptiveMutator.join_params
    have h := getD_interleave p (p.map fun _ => m.init_sd) i (by simp) hi
    refine ⟨h.1, ?_⟩
    rw [h.2, getD_map_in (fun _ => m.init_sd) p i 0 0 hi]
  · unfold RandomlyAdaptiveMutator.join_params
    exact split_params_interleave m hms

theorem c4_interleaved_witness :
    (([(1 : ℚ)].length = [(2 : ℚ)].length)
      ∧ ∀ r ∈ [[(1 : ℚ), 2], [3, 4]], r.length % 2 = 0)
    ∧ ((mr0.initP 0 [5]).length = 2 * [(5 : ℚ)].length
      ∧ (∀ i, i < [(5 : ℚ)].length →
          (mr0.initP 0 [5]).getD (2 * i) 0 = [(5 : ℚ)].getD i 0
          ∧ (mr0.initP 0 [5]).getD (2 * i + 1) 0 = mr0.init_sd)
      ∧ mr0.split_params (mr0.join_params [1] [2]) = some ([1], [2])
      ∧ ∃ mus sds, mr0.split_params_b [[(1 : ℚ), 2], [3, 4]] = some (mus, sds)
          ∧ mus.length = [[(1 : ℚ), 2], [3, 4]].length
          ∧ sds.length = [[(1 : ℚ), 2], [3, 4]].length
          ∧ ∀ j, j < [[(1 : ℚ), 2], [3, 4]].length →
              mr0.split_params ([[(1 : ℚ), 2], [3, 4]].getD j [])
                = some (mus.getD j [], sds.getD j [])) :=
  ⟨⟨rfl, by intro r hr; simp only [List.mem_cons, List.not_mem_nil, or_false] at hr; rcases hr with rfl | rfl <;> rfl⟩,
    c4_interleaved mr0 0 [5] [1] [2] [[1, 2], [3, 4]] rfl
      (by intro r hr; simp only [List.mem_cons, List.not_mem_nil, or_false] at hr; rcases hr with rfl | rfl <;> rfl)⟩

/-! ### Value-noise lemmas -/

theorem length_flatten_replicate_list {α : Type} (m : ℕ) (x : List α) :
    ((List.replicate m x).flatten).length = m * x.length := by
  induction m with
  | zero => simp
  | succ m ih =>
      simp only [List.replicate_succ, List.flatten_cons, List.length_append, ih,
        Nat.succ_mul]
      omega

theorem dropLast_range_map {α : Type} (g : ℕ → α) (f : ℕ) :
    ((List.range f).map g).dropLast = (List.range (f - 1)).map g := by
  cases f with
  | zero => rfl
  | succ m =>
      rw [List.range_succ, List.map_append]
      simp only [List.map_cons, List.map_nil]
      rw [List.dropLast_concat]
      rfl

theorem linspace_dropLast (nr : ℕ) :
    (((List.range (nr + 1)).map fun j : ℕ => (j : ℚ) / (nr : ℚ)).dropLast)
      = (List.range nr).map fun j : ℕ => (j : ℚ) / (nr : ℚ) :=
  dropLast_range_map (fun j : ℕ => (j : ℚ) / (nr : ℚ)) (nr + 1)

theorem le_mul_n_repeats (f n : ℕ) (hf : 2 ≤ f) (hn : 1 ≤ n) :
    n ≤ n_repeats f n * (f - 1) := by
  unfold n_repeats
  have hd : 0 < f - 1 := by omega
  have h1 : n + (f - 1) - 1 = (n - 1) + (f - 1) := by omega
  rw [h1, Nat.add_div_right _ hd]
  have h3 : n - 1 < ((n - 1) / (f - 1) + 1) * (f - 1) :=
    (Nat.div_lt_iff_lt_mul hd).mp (Nat.lt_succ_self _)
  omega

theorem n_repeats_pos (f n : ℕ) (hf : 2 ≤ f) (hn : 1 ≤ n) : 0 < n_repeats f n := by
  have h := le_mul_n_repeats f n hf hn
  rcases Nat.eq_zero_or_pos (n_repeats f n) with h0 | h0
  · rw [h0] at h; simp at h; omega
  · exact h0

theorem getD_drop_in {α : Type} (l : List α) (m j : ℕ) (d : α)
    (h : m + j < l.length) : (l.drop m).getD j d = l.getD (m + j) d := by
  have h' : j < (l.drop m).length := by simp only [List.length_drop]; omega
  rw [List.getD_eq_getElem _ _ h', List.getD_eq_getElem _ _ h]
  exact List.getElem_drop _

theorem getD_zip {α β : Type} (da : α) (db : β) (a : List α) (b : List β)
    (k : ℕ) (ha : k < a.length) (hb : k < b.length) :
    (a.zip b).getD k (da, db) = (a.getD k da, b.getD k db) :=
  getD_zipWith Prod.mk da db (da, db) a b k ha hb

theorem length_valuenoise1d (grads : ℕ → ℚ) (f n : ℕ) (interp : String)
    (hf : 2 ≤ f) (hn : 1 ≤ n) : (valuenoise1d grads f n interp).length = n := by
  have hle := le_mul_n_repeats f n hf hn
  have hcomm : (f - 1) * n_repeats f n = n_repeats f n * (f - 1) :=
    Nat.mul_comm _ _
  simp only [valuenoise1d, linspace_dropLast]
  split_ifs <;>
    simp only [List.length_zipWith, List.length_take, List.length_zip,
      List.length_map, length_flatten_replicate, length_flatten_replicate_list,
      List.length_dropLast, List.length_drop, List.length_range] <;>
    omega

theorem getD_segment_pr (g : ℕ → ℚ) (f n k : ℕ) (hf : 2 ≤ f) (hn : 1 ≤ n)
    (hk : k < n) :
    (((((List.range f).map g).dropLast.map
        (List.replicate (n_repeats f n))).flatten).take n).getD k 0
      = g (k / n_repeats f n) := by
  have hle := le_mul_n_repeats f n hf hn
  have hpos := n_repeats_pos f n hf hn
  have hcomm : (f - 1) * n_repeats f n = n_repeats f n * (f - 1) :=
    Nat.mul_comm _ _
  have hkb : k < n_repeats f n * ((((List.range f).map g).dropLast).length) := by
    simp only [List.length_dropLast, List.length_map, List.length_range]; omega
  rw [getD_take _ _ _ _ hk (by rw [length_flatten_replicate]; omega),
    getD_flatten_replicate _ 0 _ k hkb, dropLast_range_map]
  exact getD_range_map g 0 (f - 1) _
    ((Nat.div_lt_iff_lt_mul hpos).mpr (by omega))

theorem getD_segment_nxt (g : ℕ → ℚ) (f n k : ℕ) (hf : 2 ≤ f) (hn : 1 ≤ n)
    (hk : k < n) :
    ((((((List.range f).map g).drop 1).map
        (List.replicate (n_repeats f n))).flatten).take n).getD k 0
      = g (k / n_repeats f n + 1) := by
  have hle := le_mul_n_repeats f n hf hn
  have hpos := n_repeats_pos f n hf hn
  have hcomm : (f - 1) * n_repeats f n = n_repeats f n * (f - 1) :=
    Nat.mul_comm _ _
  have hdiv : k / n_repeats f n < f - 1 :=
    (Nat.div_lt_iff_lt_mul hpos).mpr (by omega)
  have hkb : k < n_repeats f n * ((((List.range f).map g).drop 1).length) := by
    simp only [List.length_drop, List.length_map, List.length_range]; omega
  rw [getD_take _ _ _ _ hk (by rw [length_flatten_replicate]; omega),
    getD_flatten_replicate _ 0 _ k hkb,
    getD_drop_in _ 1 (k / n_repeats f n) 0
      (by simp only [List.length_map, List.length_range]; omega),
    getD_range_map g 0 f _ (by omega), Nat.add_comm]

theorem getD_segment_t (f n k : ℕ) (hf : 2 ≤ f) (hn : 1 ≤ n) (hk : k < n) :
    (((List.replicate (f - 1)
        (((List.range (n_repeats f n + 1)).map fun j : ℕ =>
          (j : ℚ) / (n_repeats f n : ℚ)).dropLast)).flatten).take n).getD k 0
      = ((k % n_repeats f n : ℕ) : ℚ) / ((n_repeats f n : ℕ) : ℚ) := by
  have hle := le_mul_n_repeats f n hf hn
  have hpos := n_repeats_pos f n hf hn
  have hcomm : (f - 1) * n_repeats f n = n_repeats f n * (f - 1) :=
    Nat.mul_comm _ _
  rw [linspace_dropLast]
  have hkb : k < (f - 1) *
      ((List.range (n_repeats f n)).map fun j : ℕ =>
        (j : ℚ) / (n_repeats f n : ℚ)).length := by
    simp only [List.length_map, List.length_range]; omega
  rw [getD_take _ _ _ _ hk
      (by rw [length_flatten_replicate_list]
          simp only [List.length_map, List.length_range]; omega),
    getD_flatten_replicate_list 0 _ (f - 1) k hkb]
  simp only [List.length_map, List.length_range]
  exact getD_range_map _ 0 (n_repeats f n) _ (Nat.mod_lt k hpos)

theorem getD_valuenoise1d_linear (grads : ℕ → ℚ) (f n k : ℕ)
    (hf : 2 ≤ f) (hn : 1 ≤ n) (hk : k < n) :
    (valuenoise1d grads f n "linear").getD k 0
      = grads (k / n_repeats f n)
        + ((k % n_repeats f n : ℕ) : ℚ) / ((n_repeats f n : ℕ) : ℚ)
          * (grads (k / n_repeats f n + 1) - grads (k / n_repeats f n)) := by
  have hle := le_mul_n_repeats f n hf hn
  have hcomm : (f - 1) * n_repeats f n = n_repeats f n * (f - 1) :=
    Nat.mul_comm _ _
  simp only [valuenoise1d]
  rw [if_neg (by decide)]
  have hA : k < (((((List.range f).map grads).dropLast.map
      (List.replicate (n_repeats f n))).flatten).take n).length := by
    simp only [List.length_take, length_flatten_replicate, List.length_dropLast,
      List.length_map, List.length_range]
    omega
  have ht : k < ((((List.replicate (f - 1)
      (((List.range (n_repeats f n + 1)).map fun j : ℕ =>
        (j : ℚ) / (n_repeats f n : ℚ)).dropLast)).flatten).take n)).length := by
    simp only [List.length_take, length_flatten_replicate_list,
      List.length_dropLast, List.length_map, List.length_range,
      Nat.add_sub_cancel]
    omega
  have hN : k < (((((List.range f).map grads).drop 1).map
      (List.replicate (n_repeats f n))).flatten.take n).length := by
    simp only [List.length_take, length_flatten_replicate, List.length_drop,
      List.length_map, List.length_range]
    omega
  rw [getD_zipWith _ 0 (0, 0) 0 _ _ k hA (by simp only [List.length_zip]; omega),
    getD_zip 0 0 _ _ k ht hN,
    getD_segment_pr grads f n k hf hn hk,
    getD_segment_nxt grads f n k hf hn hk,
    getD_segment_t f n k hf hn hk]

theorem lerp_mem (a b t : ℚ) (ha1 : -1 ≤ a) (ha2 : a ≤ 1) (hb1 : -1 ≤ b)
    (hb2 : b ≤ 1) (ht1 : 0 ≤ t) (ht2 : t ≤ 1) :
    -1 ≤ a + t * (b - a) ∧ a + t * (b - a) ≤ 1 :=
  ⟨by nlinarith, by nlinarith⟩

/-- C5: `valuenoise1d key f n "linear"` returns exactly `n` values, each one
in `[-1, 1]`; the output splits into `f-1` contiguous segments of equal
repeat-count `ceil(n/(f-1))`, each element interpolating between the two
consecutive uniform gradient values of its segment, truncated to `n`. -/
theorem c5_valuenoise_contract (grads : ℕ → ℚ) (f n : ℕ)
    (hf : 2 ≤ f) (hn : 1 ≤ n)
    (hg : ∀ i, i < f → -1 ≤ grads i ∧ grads i ≤ 1) :
    (valuenoise1d grads f n "linear").length = n
    ∧ (∀ k, k < n → (valuenoise1d grads f n "linear").getD k 0
        = grads (k / n_repeats f n)
          + ((k % n_repeats f n : ℕ) : ℚ) / ((n_repeats f n : ℕ) : ℚ)
            * (grads (k / n_repeats f n + 1) - grads (k / n_repeats f n)))
    ∧ ∀ x ∈ valuenoise1d grads f n "linear", -1 ≤ x ∧ x ≤ 1 := by
  refine ⟨length_valuenoise1d grads f n _ hf hn,
    fun k hk => getD_valuenoise1d_linear grads f n k hf hn hk, ?_⟩
  intro x hx
  obtain ⟨k, hk, hxe⟩ := List.mem_iff_getElem.mp hx
  have hkn : k < n := by
    rw [length_valuenoise1d grads f n _ hf hn] at hk; exact hk
  have hx0 : x = (valuenoise1d grads f n "linear").getD k 0 := by
    rw [List.getD_eq_getElem _ _ hk, hxe]
  rw [hx0, getD_valuenoise1d_linear grads f n k hf hn hkn]
  have hpos := n_repeats_pos f n hf hn
  have hle := le_mul_n_repeats f n hf hn
  have hcomm : (f - 1) * n_repeats f n = n_repeats f n * (f - 1) :=
    Nat.mul_comm _ _
  have hdiv : k / n_repeats f n < f - 1 :=
    (Nat.div_lt_iff_lt_mul hpos).mpr (by omega)
  have hb1 := hg (k / n_repeats f n) (by omega)
  have hb2 := hg (k / n_repeats f n + 1) (by omega)
  have ht0 : (0 : ℚ) ≤ ((k % n_repeats f n : ℕ) : ℚ) / ((n_repeats f n : ℕ) : ℚ) := by
    positivity
  have ht1 : ((k % n_repeats f n : ℕ) : ℚ) / ((n_repeats f n : ℕ) : ℚ) ≤ 1 := by
    rw [div_le_one (by exact_mod_cast hpos)]
    exact_mod_cast le_of_lt (Nat.mod_lt k hpos)
  exact lerp_mem _ _ _ hb1.1 hb1.2 hb2.1 hb2.2 ht0 ht1

theorem c5_valuenoise_contract_witness :
    ((2 ≤ 2) ∧ (1 ≤ 3)
      ∧ ∀ i, i < 2 → -1 ≤ (fun _ : ℕ => (0 : ℚ)) i ∧ (fun _ : ℕ => (0 : ℚ)) i ≤ 1)
    ∧ ((valuenoise1d (fun _ => 0) 2 3 "linear").length = 3
      ∧ (∀ k, k < 3 → (valuenoise1d (fun _ => 0) 2 3 "linear").getD k 0
          = (fun _ : ℕ => (0 : ℚ)) (k / n_repeats 2 3)
            + ((k % n_repeats 2 3 : ℕ) : ℚ) / ((n_repeats 2 3 : ℕ) : ℚ)
              * ((fun _ : ℕ => (0 : ℚ)) (k / n_repeats 2 3 + 1)
                - (fun _ : ℕ => (0 : ℚ)) (k / n_repeats 2 3)))
      ∧ ∀ x ∈ valuenoise1d (fun _ => 0) 2 3 "linear", -1 ≤ x ∧ x ≤ 1) :=
  ⟨⟨le_refl 2, by norm_num, fun i _ => by norm_num⟩,
    c5_valuenoise_contract (fun _ => 0) 2 3 (le_refl 2) (by norm_num)
      (fun i _ => by norm_num)⟩

/-! ### Crossover lemmas -/

theorem crossover_self : ∀ (mask : List Bool) (p : List ℚ),
    p.length ≤ mask.length → crossover mask p p = p
  | _, [] => fun _ => by simp [crossover]
  | [], _ :: _ => by intro h; simp at h
  | b :: mk, a :: t => by
    intro h
    unfold crossover
    simp only [List.zip_cons_cons, List.zipWith_cons_cons]
    have ih := crossover_self mk t (by simpa using h)
    unfold crossover at ih
    rw [ih]
    cases b <;> norm_num

/-- C6: with identical parents `p`, the recombination step of
`CrossOverSexualMutator.mutate` reproduces `p` exactly (the crossover mask is
irrelevant), and the returned offspring is exactly the wrapped asexual
mutator's `mutate` applied to `p` with the fresh sub-key. -/
theorem c6_identical_parents (amut : List ℚ → List ℚ) (grads : ℕ → ℚ)
    (nf : ℕ) (p : List ℚ) (hnf : 2 ≤ nf) (hp : 1 ≤ p.length) :
    crossover ((valuenoise1d grads nf p.length "linear").map fun x =>
        decide (0 < x)) p p = p
    ∧ CrossOverSexualMutator.mutate amut grads nf p p = amut p := by
  have hmask : p.length ≤ ((valuenoise1d grads nf p.length "linear").map fun x =>
      decide (0 < x)).length := by
    rw [List.length_map, length_valuenoise1d _ _ _ _ hnf hp]
  have hx := crossover_self _ p hmask
  exact ⟨hx, by simp only [CrossOverSexualMutator.mutate]; rw [hx]⟩

theorem c6_identical_parents_witness :
    ((2 ≤ 2) ∧ (1 ≤ [(3 : ℚ)].length))
    ∧ (crossover ((valuenoise1d (fun _ => 1) 2 [(3 : ℚ)].length "linear").map fun x =>
        decide (0 < x)) [3] [3] = [3]
      ∧ CrossOverSexualMutator.mutate (fun l => l.map fun x => x + 1)
          (fun _ => 1) 2 [3] [3] = (fun l => l.map fun x => x + 1) [3]) :=
  ⟨⟨le_refl 2, by simp⟩,
    c6_identical_parents (fun l => l.map fun x => x + 1) (fun _ => 1) 2 [3]
      (le_refl 2) (by simp)⟩

/-- C10: the cubic smoothstep is applied only when the interpolation argument
is exactly the string `"cubic"`; every other string (the default
`"linear"`, misspellings, arbitrary strings) silently yields plain linear
interpolation, with no validation or error; and `"cubic"` genuinely differs
from `"linear"` on some input. -/
theorem c10_interp_fallback (grads : ℕ → ℚ) (f n : ℕ) (s : String)
    (hs : s ≠ "cubic") :
    valuenoise1d grads f n s = valuenoise1d grads f n "linear"
    ∧ valuenoise1d (fun i => if i = 0 then -1 else 1) 2 4 "cubic"
      ≠ valuenoise1d (fun i => if i = 0 then -1 else 1) 2 4 "linear" := by
  constructor
  · simp only [valuenoise1d]
    rw [if_neg hs, if_neg (by decide)]
  · have h1 : valuenoise1d (fun i => if i = 0 then -1 else 1) 2 4 "linear"
        = [-1, -1/2, 0, 1/2] := by
      simp [valuenoise1d, n_repeats, List.range_succ]
      norm_num
    have h2 : valuenoise1d (fun i => if i = 0 then -1 else 1) 2 4 "cubic"
        = [-1, -203/256, 0, 203/256] := by
      simp [valuenoise1d, n_repeats, smoothstep, List.range_succ]
      norm_num
    rw [h1, h2]
    intro hcontra
    simp at hcontra
    norm_num at hcontra

theorem c10_interp_fallback_witness :
    ("quadratic" ≠ "cubic")
    ∧ (valuenoise1d (fun _ => 0) 2 1 "quadratic"
        = valuenoise1d (fun _ => 0) 2 1 "linear"
      ∧ valuenoise1d (fun i => if i = 0 then -1 else 1) 2 4 "cubic"
        ≠ valuenoise1d (fun i => if i = 0 then -1 else 1) 2 4 "linear") :=
  ⟨by decide, c10_interp_fallback (fun _ => 0) 2 1 "quadratic" (by decide)⟩

/-! ### RandomlyAdaptiveMutator.mutate lemmas -/

theorem length_dmuArr (m : RandomlyAdaptiveMutator) (tn1 unif : ℕ → ℚ)
    (sd : List ℚ) : (m.dmuArr tn1 unif sd).length = sd.length := by
  unfold RandomlyAdaptiveMutator.dmuArr
  cases m.change_perc <;> simp

theorem length_dsdArr (m : RandomlyAdaptiveMutator) (tn2 unif : ℕ → ℚ)
    (sd : List ℚ) : (m.dsdArr tn2 unif sd).length = sd.length := by
  unfold RandomlyAdaptiveMutator.dsdArr
  cases m.change_perc <;> simp

theorem getD_dmuArr_some (m : RandomlyAdaptiveMutator) (cp : ℚ)
    (hcp : m.change_perc = some cp) (tn1 unif : ℕ → ℚ) (sd : List ℚ) (i : ℕ)
    (hi : i < sd.length) :
    (m.dmuArr tn1 unif sd).getD i 0
      = tn1 i * sd.getD i 0 * (if unif i < cp then (1 : ℚ) else 0) := by
  unfold RandomlyAdaptiveMutator.dmuArr
  rw [hcp]
  rw [getD_zipWith _ 0 0 0 _ _ i (by simp; omega) (by simp; omega),
    getD_zipWith _ 0 0 0 _ _ i (by simp; omega) hi,
    getD_range_map tn1 0 sd.length i hi,
    getD_range_map _ 0 sd.length i hi]

theorem getD_dsdArr_some (m : RandomlyAdaptiveMutator) (cp : ℚ)
    (hcp : m.change_perc = some cp) (tn2 unif : ℕ → ℚ) (sd : List ℚ) (i : ℕ)
    (hi : i < sd.length) :
    (m.dsdArr tn2 unif sd).getD i 0
      = tn2 i * sd.getD i 0 * m.meta_sd_perc *
          (if unif i < cp then (1 : ℚ) else 0) := by
  unfold RandomlyAdaptiveMutator.dsdArr
  rw [hcp]
  rw [getD_zipWith _ 0 0 0 _ _ i (by simp; omega) (by simp; omega),
    getD_zipWith _ 0 0 0 _ _ i (by simp; omega) hi,
    getD_range_map tn2 0 sd.length i hi,
    getD_range_map _ 0 sd.length i hi]

theorem mutate_eq_of_split (m : RandomlyAdaptiveMutator) (tn1 tn2 unif : ℕ → ℚ)
    {p mu sd : List ℚ} (h : m.split_params p = some (mu, sd)) :
    m.mutate tn1 tn2 unif p = some (m.join_params
      (List.zipWith (fun a b => a + b) mu (m.dmuArr tn1 unif sd))
      (List.zipWith (fun s d => clip (s + d) m.min_sd m.max_sd) sd
        (m.dsdArr tn2 unif sd))) := by
  unfold RandomlyAdaptiveMutator.mutate
  rw [h]

theorem clip_mem (x lo hi : ℚ) (h : lo ≤ hi) :
    lo ≤ clip x lo hi ∧ clip x lo hi ≤ hi :=
  ⟨le_min (le_max_right x lo) h, min_le_right _ _⟩

theorem mem_zipWith_clip (m : RandomlyAdaptiveMutator) (sd dsd : List ℚ)
    (hmm : m.min_sd ≤ m.max_sd) :
    ∀ x ∈ List.zipWith (fun s d => clip (s + d) m.min_sd m.max_sd) sd dsd,
      m.min_sd ≤ x ∧ x ≤ m.max_sd := by
  intro x hx
  obtain ⟨k, hk, hxe⟩ := List.mem_iff_getElem.mp hx
  rw [← hxe, List.getElem_zipWith]
  exact clip_mem _ _ _ hmm

/-- C2 (counterexample to the claim as stated): with `change_perc = 1` (mask
active everywhere) a truncated-normal draw of exactly 0 for the value and a
nonzero draw for the std-dev give `dmu[0] = 0` while `dsd[0] ≠ 0`; the full
`mutate` call on `[0, 1]` leaves the value unchanged (0) while the std-dev
moves from 1 to 11/10. -/
theorem c2_coupled_deltas_counterexample :
    (me2.dmuArr (fun _ => 0) (fun _ => 0) [1]).getD 0 0 = 0
    ∧ (me2.dsdArr (fun _ => 1) (fun _ => 0) [1]).getD 0 0 ≠ 0
    ∧ me2.mutate (fun _ => 0) (fun _ => 1) (fun _ => 0) [0, 1]
        = some [0, 11/10] := by
  refine ⟨?_, ?_, ?_⟩
  · norm_num [me2, RandomlyAdaptiveMutator.dmuArr, List.range_succ]
  · norm_num [me2, RandomlyAdaptiveMutator.dsdArr, List.range_succ]
  · norm_num [me2, RandomlyAdaptiveMutator.mutate,
      RandomlyAdaptiveMutator.split_params, toPairs,
      RandomlyAdaptiveMutator.join_params, interleave,
      RandomlyAdaptiveMutator.dmuArr, RandomlyAdaptiveMutator.dsdArr,
      List.range_succ, clip, min_def, max_def]

/-- C2 (amended): for `change_perc` not `None`, at every index whose two
truncated-normal draws are nonzero and with `meta_sd_perc` nonzero, the value
delta is zero iff the std-dev delta is zero (both vanish exactly when the
shared Bernoulli mask is 0 or the current `sd` is 0); without the
nonzero-draw proviso a draw of exactly 0 breaks the equivalence. -/
theorem c2_coupled_deltas (m : RandomlyAdaptiveMutator) (cp : ℚ)
    (tn1 tn2 unif : ℕ → ℚ) (sd : List ℚ) (i : ℕ)
    (hcp : m.change_perc = some cp) (hi : i < sd.length)
    (h1 : tn1 i ≠ 0) (h2 : tn2 i ≠ 0) (hm : m.meta_sd_perc ≠ 0) :
    (m.dmuArr tn1 unif sd).getD i 0 = 0
      ↔ (m.dsdArr tn2 unif sd).getD i 0 = 0 := by
  rw [getD_dmuArr_some m cp hcp tn1 unif sd i hi,
    getD_dsdArr_some m cp hcp tn2 unif sd i hi]
  by_cases hmask : unif i < cp
  · simp [hmask, mul_eq_zero, h1, h2, hm]
  · simp [hmask]

theorem c2_coupled_deltas_witness :
    (me2.change_perc = some 1 ∧ 0 < [(1 : ℚ)].length
      ∧ (fun _ : ℕ => (1 : ℚ)) 0 ≠ 0 ∧ (fun _ : ℕ => (1 : ℚ)) 0 ≠ 0
      ∧ me2.meta_sd_perc ≠ 0)
    ∧ ((me2.dmuArr (fun _ => 1) (fun _ => 0) [1]).getD 0 0 = 0
      ↔ (me2.dsdArr (fun _ => 1) (fun _ => 0) [1]).getD 0 0 = 0) :=
  ⟨⟨rfl, by norm_num, by norm_num, by norm_num, by norm_num [me2]⟩,
    c2_coupled_deltas me2 1 (fun _ => 1) (fun _ => 1) (fun _ => 0) [1] 0 rfl
      (by norm_num) (by norm_num) (by norm_num) (by norm_num [me2])⟩

/-- C3: for input whose std-dev component lies in `[min_sd, max_sd]`, every
std-dev recovered from the output of `mutate` lies in `[min_sd, max_sd]`
inclusive, and the new std-dev component is exactly
`clip (sd + dsd) min_sd max_sd` — the clamp applied after the additive
update, not a clamp of `dsd` nor a pre-clamp of `sd`. -/
theorem c3_sd_clamp (m : RandomlyAdaptiveMutator) (tn1 tn2 unif : ℕ → ℚ)
    (p mu sd : List ℚ) (hs : m.split_params p = some (mu, sd))
    (hrange : ∀ x ∈ sd, m.min_sd ≤ x ∧ x ≤ m.max_sd) :
    ∃ out mu' sd', m.mutate tn1 tn2 unif p = some out
      ∧ m.split_params out = some (mu', sd')
      ∧ sd' = List.zipWith (fun s d => clip (s + d) m.min_sd m.max_sd) sd
          (m.dsdArr tn2 unif sd)
      ∧ ∀ x ∈ sd', m.min_sd ≤ x ∧ x ≤ m.max_sd := by
  have hlen := split_params_lengths m hs
  have hlm : (List.zipWith (fun a b => a + b) mu (m.dmuArr tn1 unif sd)).length
      = (List.zipWith (fun s d => clip (s + d) m.min_sd m.max_sd) sd
          (m.dsdArr tn2 unif sd)).length := by
    simp [length_dmuArr, length_dsdArr, hlen]
  refine ⟨_, _, _, mutate_eq_of_split m tn1 tn2 unif hs,
    split_params_interleave m hlm, rfl, ?_⟩
  intro x hx
  obtain ⟨k, hk, hxe⟩ := List.mem_iff_getElem.mp hx
  have hk' : k < sd.length := by
    simp only [List.length_zipWith, length_dsdArr, Nat.min_self] at hk
    exact hk
  have hmem : sd.get ⟨k, hk'⟩ ∈ sd := List.get_mem sd k hk'
  obtain ⟨hlo, hhi⟩ := hrange _ hmem
  exact mem_zipWith_clip m sd _ (le_trans hlo hhi) x hx

theorem c3_sd_clamp_witness :
    (mr0.split_params [0, 1] = some ([0], [1])
      ∧ ∀ x ∈ [(1 : ℚ)], mr0.min_sd ≤ x ∧ x ≤ mr0.max_sd)
    ∧ (∃ out mu' sd', mr0.mutate (fun _ => 0) (fun _ => 0) (fun _ => 0) [0, 1]
          = some out
        ∧ mr0.split_params out = some (mu', sd')
        ∧ sd' = List.zipWith (fun s d => clip (s + d) mr0.min_sd mr0.max_sd) [1]
            (mr0.dsdArr (fun _ => 0) (fun _ => 0) [1])
        ∧ ∀ x ∈ sd', mr0.min_sd ≤ x ∧ x ≤ mr0.max_sd) :=
  ⟨⟨rfl, (by
      intro x hx
      simp only [List.mem_singleton] at hx
      subst hx
      constructor <;> norm_num [mr0])⟩,
    c3_sd_clamp mr0 (fun _ => 0) (fun _ => 0) (fun _ => 0) [0, 1] [0] [1] rfl
      (by
        intro x hx
        simp only [List.mem_singleton] at hx
        subst hx
        constructor <;> norm_num [mr0])⟩

/-- C9: with `min_sd ≤ max_sd`, for every key and every full input vector —
also one whose std-dev component lies outside `[min_sd, max_sd]` — every
std-dev recovered from a successful `mutate` lies in `[min_sd, max_sd]`: the
clip after the additive update restores the invariant, it does not merely
preserve it. -/
theorem c9_clamp_restores (m : RandomlyAdaptiveMutator) (tn1 tn2 unif : ℕ → ℚ)
    (p out : List ℚ) (hmm : m.min_sd ≤ m.max_sd)
    (hm : m.mutate tn1 tn2 unif p = some out) :
    ∃ mu' sd', m.split_params out = some (mu', sd')
      ∧ ∀ x ∈ sd', m.min_sd ≤ x ∧ x ≤ m.max_sd := by
  unfold RandomlyAdaptiveMutator.mutate at hm
  cases hsp : m.split_params p with
  | none => rw [hsp] at hm; exact absurd hm (by simp)
  | some musd =>
      obtain ⟨mu, sd⟩ := musd
      rw [hsp] at hm
      simp only [Option.some.injEq] at hm
      have hlen := split_params_lengths m hsp
      have hlm : (List.zipWith (fun a b => a + b) mu
            (m.dmuArr tn1 unif sd)).length
          = (List.zipWith (fun s d => clip (s + d) m.min_sd m.max_sd) sd
              (m.dsdArr tn2 unif sd)).length := by
        simp [length_dmuArr, length_dsdArr, hlen]
      exact ⟨_, _, by rw [← hm]; exact split_params_interleave m hlm,
        mem_zipWith_clip m sd _ hmm⟩

theorem c9_clamp_restores_witness :
    (mr0.min_sd ≤ mr0.max_sd
      ∧ mr0.mutate (fun _ => 0) (fun _ => 0) (fun _ => 0) [0, 100]
          = some [0, 10])
    ∧ (∃ mu' sd', mr0.split_params [0, 10] = some (mu', sd')
        ∧ ∀ x ∈ sd', mr0.min_sd ≤ x ∧ x ≤ mr0.max_sd) :=
  ⟨⟨by norm_num [mr0],
    by norm_num [mr0, RandomlyAdaptiveMutator.mutate,
      RandomlyAdaptiveMutator.split_params, toPairs,
      RandomlyAdaptiveMutator.join_params, interleave,
      RandomlyAdaptiveMutator.dmuArr, RandomlyAdaptiveMutator.dsdArr,
      List.range_succ, clip, min_def, max_def]⟩,
    c9_clamp_restores mr0 (fun _ => 0) (fun _ => 0) (fun _ => 0) [0, 100]
      [0, 10] (by norm_num [mr0])
      (by norm_num [mr0, RandomlyAdaptiveMutator.mutate,
        RandomlyAdaptiveMutator.split_params, toPairs,
        RandomlyAdaptiveMutator.join_params, interleave,
        RandomlyAdaptiveMutator.dmuArr, RandomlyAdaptiveMutator.dsdArr,
        List.range_succ, clip, min_def, max_def])⟩

end Mutators
